import Mathlib

/-!
Verification of the forward-chaining propositional entailment engine
(`clause.py`, `knowledge_base.py`, `forward_chaining.py`) against its
natural-language specification.

The Python code is shallowly embedded:

* `Clause` mirrors the Python `Clause` class (`premise_literals`,
  `conclusion_literal`, the mutable `known_count` field).  The raw result of
  `Clause.from_string` is mirrored by `ParsedClause`, whose conclusion is an
  `Option String` because the Python parser can return a clause whose
  `conclusion_literal` is `None` (empty input).
* `KnowledgeBase` mirrors the Python class.  Python dictionaries key clause
  objects by identity, so two structurally equal clauses inserted twice are
  distinct keys; the embedding therefore identifies a clause by its index in
  `clauses`, and the premise index stores `(index, clause)` pairs.  The Python
  `facts` set is modelled as a duplicate-free list in insertion order (CPython
  set iteration order is unspecified; insertion order is the canonical
  deterministic refinement used throughout).
* The `while agenda:` loop of `forward_chaining` is embedded as `fcLoop`, a
  fuel-indexed step function; `fcFuel` is an a-priori bound on the number of
  iterations, and the termination theorem shows the loop always finishes
  within that bound.
-/

namespace FC

/-- Embedding of the Python `Clause` class: a list of premise symbols, one
conclusion symbol and the mutable `known_count` counter (initialised to `0`
by `__init__` and never consulted by the inference engine). -/
structure Clause where
  premise_literals : List String
  conclusion_literal : String
  known_count : Int := 0
  deriving Repr, DecidableEq

/-- Embedding of `Clause.is_fact`: a clause is a fact when its premise list is
empty. -/
def Clause.is_fact (c : Clause) : Bool :=
  c.premise_literals.length = 0

/-- Raw result type of `Clause.from_string`: the Python parser can produce a
clause object whose `conclusion_literal` is `None` (zero-token input), so the
conclusion is an `Option`. -/
structure ParsedClause where
  premise_literals : List String
  conclusion_literal : Option String
  deriving Repr, DecidableEq

/-- Embedding of Python `literal.startswith('-')`: the first character of the
token is a dash. -/
def startsWithDash (t : String) : Bool :=
  match t.data with
  | [] => false
  | c :: _ => c = '-'

/-- Embedding of Python `literal[1:]`: the token without its first
character. -/
def dropFirst (t : String) : String :=
  String.mk (t.data.drop 1)

/-- Worker for `tokenize`: scan the characters, accumulating the current
token (in reverse) and emitting it at every whitespace run boundary; empty
fragments are never emitted. -/
def tokenizeChars : List Char → List Char → List String
  | acc, [] => if acc = [] then [] else [String.mk acc.reverse]
  | acc, ch :: rest =>
    if ch.isWhitespace then
      (if acc = [] then [] else [String.mk acc.reverse]) ++ tokenizeChars [] rest
    else
      tokenizeChars (ch :: acc) rest

/-- Embedding of `clause_str.strip().split()`: the maximal non-whitespace
runs of the string, in order (Python `str.split()` with no argument splits on
whitespace runs and never yields empty tokens, which also makes the leading
`strip()` redundant). -/
def tokenize (s : String) : List String :=
  tokenizeChars [] s.data

/-- Embedding of the token scan inside `Clause.from_string`: negated tokens
(leading `-`) are accumulated, stripped of the sign, until the first
non-negated token, which becomes the conclusion; the scan stops there
(Python `break`), ignoring all later tokens. -/
def scanLiterals : List String → List String × Option String
  | [] => ([], none)
  | lit :: rest =>
    if startsWithDash lit then
      let r := scanLiterals rest
      (dropFirst lit :: r.1, r.2)
    else
      ([], some lit)

/-- Embedding of `Clause.from_string`.  Mirrors the Python control flow,
including the (unreachable) single-positive-token special case inside the
`conclusion_literal is None and literals` branch; `ValueError` becomes
`Except.error`. -/
def from_string (clause_str : String) : Except String ParsedClause :=
  let literals := tokenize clause_str
  let scanned := scanLiterals literals
  let premise_literals := scanned.1
  let conclusion_literal := scanned.2
  if conclusion_literal = none ∧ literals ≠ [] then
    if literals.length = 1 ∧ ¬ startsWithDash (literals.headD "") then
      Except.ok ⟨[], some (literals.headD "")⟩
    else
      Except.error "Definite clause must have exactly one positive literal (conclusion)"
  else
    Except.ok ⟨premise_literals, conclusion_literal⟩

/-- Embedding of the Python `KnowledgeBase` class.  Clause identity (Python
object identity, used as dictionary key) is modelled by the clause's index in
`clauses`; `clauses_by_premise` maps a symbol to the `(index, clause)` pairs
of the clauses whose premise list mentions it, one entry per occurrence, in
insertion order, exactly as the Python `defaultdict(list)` is populated.
`facts` models the Python set as a duplicate-free insertion-ordered list. -/
structure KnowledgeBase where
  clauses : List Clause
  clauses_by_premise : String → List (Nat × Clause)
  facts : List String

/-- Embedding of `KnowledgeBase.__init__`. -/
def KnowledgeBase.empty : KnowledgeBase :=
  { clauses := [], clauses_by_premise := fun _ => [], facts := [] }

/-- Embedding of `KnowledgeBase.add_clause`: append the clause; if it is a
fact, add its conclusion to the facts set (set insertion: no effect when
already present); append an index entry to the bucket of every premise
literal, once per occurrence. -/
def KnowledgeBase.add_clause (kb : KnowledgeBase) (c : Clause) : KnowledgeBase :=
  { clauses := kb.clauses ++ [c]
    facts :=
      if c.premise_literals = [] then
        if c.conclusion_literal ∈ kb.facts then kb.facts
        else kb.facts ++ [c.conclusion_literal]
      else kb.facts
    clauses_by_premise := fun s =>
      kb.clauses_by_premise s ++
        (c.premise_literals.filter (fun l => l = s)).map
          (fun _ => (kb.clauses.length, c)) }

/-- Embedding of `KnowledgeBase.get_facts`. -/
def KnowledgeBase.get_facts (kb : KnowledgeBase) : List String :=
  kb.facts

/-- Embedding of `KnowledgeBase.get_clauses_with_premise`
(`clauses_by_premise.get(symbol, [])`; the total function already returns
`[]` for unindexed symbols). -/
def KnowledgeBase.get_clauses_with_premise (kb : KnowledgeBase) (symbol : String) :
    List (Nat × Clause) :=
  kb.clauses_by_premise symbol

/-- Knowledge base obtained by inserting the given clauses, in order, into an
empty knowledge base. -/
def KnowledgeBase.ofClauses (cs : List Clause) : KnowledgeBase :=
  cs.foldl KnowledgeBase.add_clause KnowledgeBase.empty

/-- A knowledge base value is reachable when it is built by some sequence of
`add_clause` insertions starting from the empty knowledge base — the only way
the Python API constructs one. -/
def Reachable (kb : KnowledgeBase) : Prop :=
  ∃ cs : List Clause, kb = KnowledgeBase.ofClauses cs

/-- Per-run working state of `forward_chaining`: the fresh `count` dictionary
(keyed by clause index), the `inferred` default-false dictionary, the FIFO
`agenda` (head = front of the deque) and the `inference_path` accumulator. -/
structure FCState where
  count : Nat → Int
  inferred : String → Bool
  agenda : List String
  path : List String

/-- Embedding of one iteration of the inner `for clause in
kb.get_clauses_with_premise(p)` loop: decrement the clause's count and, when
it reaches exactly `0`, append its conclusion to the back of the agenda. -/
def fireStep (ca : (Nat → Int) × List String) (entry : Nat × Clause) :
    (Nat → Int) × List String :=
  let newCount := ca.1 entry.1 - 1
  let count' : Nat → Int := fun j => if j = entry.1 then newCount else ca.1 j
  if newCount = 0 then (count', ca.2 ++ [entry.2.conclusion_literal])
  else (count', ca.2)

/-- Fuel-indexed embedding of the `while agenda:` loop of `forward_chaining`:
pop the head symbol; return entailed if it is the query; skip it if already
inferred; otherwise mark it inferred, extend the path and fire the indexed
clauses.  `none` means the fuel ran out before the loop finished. -/
def fcLoop (bucket : String → List (Nat × Clause)) (query : String) :
    Nat → FCState → Option (Bool × List String)
  | 0, _ => none
  | fuel + 1, st =>
    match st.agenda with
    | [] => some (false, st.path)
    | p :: rest =>
      if p = query then some (true, st.path ++ [p])
      else if st.inferred p then
        fcLoop bucket query fuel { st with agenda := rest }
      else
        let ca := (bucket p).foldl fireStep (st.count, rest)
        fcLoop bucket query fuel
          { count := ca.1
            inferred := fun s => if s = p then true else st.inferred s
            agenda := ca.2
            path := st.path ++ [p] }

/-- Embedding of the `count` initialisation
`{clause: len(clause.premise_literals) for clause in kb.clauses}`, keyed by
clause index. -/
def initCount (kb : KnowledgeBase) : Nat → Int :=
  fun i => ((kb.clauses.getD i ⟨[], "", 0⟩).premise_literals.length : Int)

/-- Initial per-run state of `forward_chaining`: fresh counts, all-false
`inferred`, agenda seeded with the fact symbols, empty path. -/
def initState (kb : KnowledgeBase) : FCState :=
  { count := initCount kb
    inferred := fun _ => false
    agenda := kb.get_facts
    path := [] }

/-- All symbols occurring in some premise of some clause of `kb`, without
duplicates (auxiliary to the termination bound). -/
def premSymbols (kb : KnowledgeBase) : List String :=
  (kb.clauses.map (fun c => c.premise_literals)).flatten.dedup

/-- A-priori bound on the number of loop iterations of `forward_chaining`:
initial agenda length, plus the total size of the premise index (every later
agenda entry is paid for by an index entry), plus one for the final empty
test. -/
def fcFuel (kb : KnowledgeBase) : Nat :=
  kb.facts.length +
    ((premSymbols kb).map (fun s => (kb.clauses_by_premise s).length)).sum + 1

/-- Embedding of `forward_chaining(kb, query)`.  The loop is run with the
`fcFuel` iteration budget; the termination theorem shows the budget always
suffices on reachable knowledge bases, so the default is never taken there. -/
def forward_chaining (kb : KnowledgeBase) (query : String) : Bool × List String :=
  (fcLoop kb.clauses_by_premise query (fcFuel kb) (initState kb)).getD (false, [])

/-- Derivability by the forward-chaining fixed point: the closure of the
zero-premise clauses under clause firing — a symbol is derivable exactly when
some clause of `kb` concludes it from derivable premises. -/
inductive derivable (kb : KnowledgeBase) : String → Prop where
  | fire (c : Clause) (hc : c ∈ kb.clauses)
      (hp : ∀ s ∈ c.premise_literals, derivable kb s) :
      derivable kb c.conclusion_literal

/-- Structured record emitted by `forward_chaining_with_trace`, one
constructor per `trace.append` site of the Python code.  The `inferred`
snapshot (true entries of the defaultdict, in key insertion order) coincides
with the current inference path, and the per-clause count snapshot is
recorded by clause index. -/
inductive TraceEntry where
  | startRun (stp : Nat) (agenda : List String) (inferredTrue : List String)
      (counts : List Int) : TraceEntry
  | popAgenda (stp : Nat) (agenda : List String) (current : String) : TraceEntry
  | foundQuery (stp : Nat) (query : String) : TraceEntry
  | inferSym (stp : Nat) (sym : String) (inferredTrue : List String) : TraceEntry
  | updateCount (stp : Nat) (clauseIdx : Nat) (oldCount newCount : Int) : TraceEntry
  | addToAgenda (stp : Nat) (conclusion : String) (agenda : List String) : TraceEntry
  | agendaEmpty (stp : Nat) : TraceEntry
  deriving Repr, DecidableEq

/-- Working state of the traced run: the plain per-run state plus the trace
accumulator and the step counter. -/
structure FCTState where
  count : Nat → Int
  inferred : String → Bool
  agenda : List String
  path : List String
  trace : List TraceEntry
  stp : Nat

/-- Embedding of one iteration of the inner clause loop of
`forward_chaining_with_trace`: record the count update, decrement, and on
reaching zero append the conclusion to the agenda and record it. -/
def fireStepT (ts : (Nat → Int) × List String × List TraceEntry × Nat)
    (entry : Nat × Clause) : (Nat → Int) × List String × List TraceEntry × Nat :=
  let oldCount := ts.1 entry.1
  let newCount := oldCount - 1
  let count' : Nat → Int := fun j => if j = entry.1 then newCount else ts.1 j
  let trace1 := ts.2.2.1 ++ [.updateCount ts.2.2.2 entry.1 oldCount newCount]
  let stp1 := ts.2.2.2 + 1
  if newCount = 0 then
    let agenda' := ts.2.1 ++ [entry.2.conclusion_literal]
    (count', agenda', trace1 ++ [.addToAgenda stp1 entry.2.conclusion_literal agenda'], stp1 + 1)
  else
    (count', ts.2.1, trace1, stp1)

/-- Fuel-indexed embedding of the `while agenda:` loop of
`forward_chaining_with_trace`: the same decision sequence as `fcLoop`, with a
record appended at every step of the Python code. -/
def fcTraceLoop (bucket : String → List (Nat × Clause)) (query : String) :
    Nat → FCTState → Option (Bool × List String × List TraceEntry)
  | 0, _ => none
  | fuel + 1, st =>
    match st.agenda with
    | [] => some (false, st.path, st.trace ++ [.agendaEmpty st.stp])
    | p :: rest =>
      let trace0 := st.trace ++ [.popAgenda st.stp rest p]
      let stp0 := st.stp + 1
      if p = query then
        some (true, st.path ++ [p], trace0 ++ [.foundQuery stp0 p])
      else if st.inferred p then
        fcTraceLoop bucket query fuel { st with agenda := rest, trace := trace0, stp := stp0 }
      else
        let path' := st.path ++ [p]
        let trace1 := trace0 ++ [.inferSym stp0 p path']
        let stp1 := stp0 + 1
        let ts := (bucket p).foldl fireStepT (st.count, rest, trace1, stp1)
        fcTraceLoop bucket query fuel
          { count := ts.1
            inferred := fun s => if s = p then true else st.inferred s
            agenda := ts.2.1
            path := path'
            trace := ts.2.2.1
            stp := ts.2.2.2 }

/-- Embedding of `forward_chaining_with_trace(kb, query)`: same
initialisation as `forward_chaining`, preceded by the step-0 record of the
initial agenda, inferred snapshot and counts. -/
def forward_chaining_with_trace (kb : KnowledgeBase) (query : String) :
    Bool × List String × List TraceEntry :=
  (fcTraceLoop kb.clauses_by_premise query (fcFuel kb)
      { count := initCount kb
        inferred := fun _ => false
        agenda := kb.get_facts
        path := []
        trace := [.startRun 0 kb.get_facts []
          (kb.clauses.map (fun c => (c.premise_literals.length : Int)))]
        stp := 1 }).getD (false, [], [])

/-! ### Parser lemmas -/

lemma scanLiterals_all_dash {l : List String} (h : ∀ t ∈ l, startsWithDash t = true) :
    scanLiterals l = (l.map dropFirst, none) := by
  induction l with
  | nil => simp [scanLiterals]
  | cons a t ih =>
    have ha := h a (by simp)
    have ih' := ih (fun s hs => h s (by simp [hs]))
    simp only [scanLiterals, ha, if_true, ih', List.map_cons]

lemma scanLiterals_split (pre : List String) (c : String) (post : List String)
    (hpre : ∀ t ∈ pre, startsWithDash t = true) (hc : startsWithDash c = false) :
    scanLiterals (pre ++ c :: post) = (pre.map dropFirst, some c) := by
  induction pre with
  | nil => simp [scanLiterals, hc]
  | cons a t ih =>
    have ha := hpre a (by simp)
    have ih' := ih (fun s hs => hpre s (by simp [hs]))
    simp only [List.cons_append, scanLiterals, ha, if_true, List.append_eq, ih',
      List.map_cons]

/-! ### Claims C5, C6, C10 about `Clause.from_string` -/

lemma from_string_split_ok (s : String) (pre : List String) (c : String)
    (post : List String) (htok : tokenize s = pre ++ c :: post)
    (hpre : ∀ t ∈ pre, startsWithDash t = true) (hc : startsWithDash c = false) :
    from_string s = Except.ok ⟨pre.map dropFirst, some c⟩ := by
  have hscan := scanLiterals_split pre c post hpre hc
  simp only [from_string, htok, hscan]
  simp

/-- C5: for an input whose token list splits as negated tokens `pre`, then a
first non-negated token `c`, then arbitrary ignored tokens `post`,
`Clause.from_string` returns the clause whose premises are the sign-stripped
tokens of `pre`, in order, and whose conclusion is `c`. -/
theorem from_string_scan_spec (s : String) (pre : List String) (c : String)
    (post : List String) (htok : tokenize s = pre ++ c :: post)
    (hpre : ∀ t ∈ pre, startsWithDash t = true) (hc : startsWithDash c = false) :
    from_string s = Except.ok ⟨pre.map dropFirst, some c⟩ :=
  from_string_split_ok s pre c post htok hpre hc

/-- Witness for C5: `"-a b c"` parses with premises `["a"]`, conclusion `"b"`,
and the trailing token `"c"` ignored. -/
theorem from_string_scan_spec_witness :
    tokenize "-a b c" = ["-a"] ++ "b" :: ["c"] ∧
      from_string "-a b c" = Except.ok ⟨["a"], some "b"⟩ := by
  refine ⟨by decide, ?_⟩
  have h := from_string_scan_spec "-a b c" ["-a"] "b" ["c"] (by decide) (by decide) (by decide)
  simpa using h

lemma exists_first_not_dash {l : List String}
    (h : ∃ t ∈ l, startsWithDash t = false) :
    ∃ pre c post, l = pre ++ c :: post ∧ (∀ t ∈ pre, startsWithDash t = true) ∧
      startsWithDash c = false := by
  induction l with
  | nil => simp at h
  | cons a t ih =>
    cases ha : startsWithDash a with
    | false => exact ⟨[], a, t, rfl, by simp, ha⟩
    | true =>
      have h' : ∃ u ∈ t, startsWithDash u = false := by
        obtain ⟨u, hu, hfu⟩ := h
        rcases List.mem_cons.mp hu with h1 | h2
        · rw [h1] at hfu; rw [hfu] at ha; cases ha
        · exact ⟨u, h2, hfu⟩
      obtain ⟨pre, c, post, heq, hpre, hc⟩ := ih h'
      refine ⟨a :: pre, c, post, by simp [heq], ?_, hc⟩
      intro u hu
      rcases List.mem_cons.mp hu with h1 | h2
      · rw [h1]; exact ha
      · exact hpre u h2

/-- C6: `Clause.from_string` fails (the missing-conclusion `ValueError`)
exactly when the input has at least one token and every token is negated. -/
theorem from_string_error_iff (s : String) :
    (∃ e, from_string s = Except.error e) ↔
      (tokenize s ≠ [] ∧ ∀ t ∈ tokenize s, startsWithDash t = true) := by
  constructor
  · rintro ⟨e, he⟩
    by_cases hnil : tokenize s = []
    · rw [from_string, hnil] at he
      simp [scanLiterals] at he
    refine ⟨hnil, ?_⟩
    intro t ht
    by_contra hdash
    have hdash' : startsWithDash t = false := by
      cases h : startsWithDash t
      · rfl
      · exact absurd h hdash
    obtain ⟨pre, c, post, heq, hpre, hc⟩ :=
      exists_first_not_dash ⟨t, ht, hdash'⟩
    rw [from_string_split_ok s pre c post heq hpre hc] at he
    cases he
  · rintro ⟨hnil, hall⟩
    rw [from_string]
    rw [scanLiterals_all_dash hall]
    obtain ⟨a, l, hl⟩ : ∃ a l, tokenize s = a :: l := by
      cases h : tokenize s with
      | nil => exact absurd h hnil
      | cons a l => exact ⟨a, l, rfl⟩
    have ha : startsWithDash a = true := hall a (by simp [hl])
    simp only [hl]
    simp [ha]

/-- C10: on an input with no tokens (empty or all-whitespace line),
`Clause.from_string` does not fail: it returns the degenerate clause with no
premises and conclusion `None`. -/
theorem from_string_no_tokens (s : String) (h : tokenize s = []) :
    from_string s = Except.ok ⟨[], none⟩ := by
  rw [from_string, h]
  simp [scanLiterals]

/-- Witness for C10: the all-whitespace line `"  "` yields the degenerate
`None`-conclusion fact. -/
theorem from_string_no_tokens_witness :
    tokenize "  " = [] ∧ from_string "  " = Except.ok ⟨[], none⟩ :=
  ⟨by decide, from_string_no_tokens "  " (by decide)⟩

/-! ### Structural invariants of `add_clause`-built knowledge bases -/

/-- Invariants maintained by `KnowledgeBase.add_clause`: every premise-index
entry points back to the clause stored at its index; the index bucket of a
symbol holds each clause once per occurrence of that symbol in its premise
list; and the facts set holds exactly the conclusions of the zero-premise
clauses. -/
structure KBInv (kb : KnowledgeBase) : Prop where
  idx_ok : ∀ s i c, (i, c) ∈ kb.clauses_by_premise s → kb.clauses[i]? = some c
  bucket_occ : ∀ s i c, kb.clauses[i]? = some c →
    ((kb.clauses_by_premise s).map Prod.fst).count i =
      (c.premise_literals.filter (fun l => l = s)).length
  facts_iff : ∀ s, s ∈ kb.facts ↔
    ∃ c ∈ kb.clauses, c.premise_literals = [] ∧ c.conclusion_literal = s

lemma kbinv_empty : KBInv KnowledgeBase.empty := by
  refine ⟨?_, ?_, ?_⟩
  · intro s i c h
    simp [KnowledgeBase.empty] at h
  · intro s i c h
    simp [KnowledgeBase.empty] at h
  · intro s
    simp [KnowledgeBase.empty]

lemma kbinv_add {kb : KnowledgeBase} (h : KBInv kb) (c : Clause) :
    KBInv (kb.add_clause c) := by
  obtain ⟨hidx, hocc, hfacts⟩ := h
  refine ⟨?_, ?_, ?_⟩
  · intro s i c' hmem
    simp only [KnowledgeBase.add_clause, List.mem_append] at hmem
    rcases hmem with hold | hnew
    · have h1 := hidx s i c' hold
      have hi : i < kb.clauses.length := by
        rcases List.getElem?_eq_some.mp h1 with ⟨hlt, _⟩
        exact hlt
      simp only [KnowledgeBase.add_clause]
      rw [List.getElem?_append_left hi]
      exact h1
    · have : (i, c') = (kb.clauses.length, c) := by
        rcases List.mem_map.mp hnew with ⟨x, _, hx⟩
        exact hx.symm
      have hi : i = kb.clauses.length := by
        have := congrArg Prod.fst this
        simpa using this
      have hc : c' = c := by
        have := congrArg Prod.snd this
        simpa using this
      subst hi; subst hc
      simp only [KnowledgeBase.add_clause]
      exact List.getElem?_concat_length _ _
  · intro s i c' hget
    simp only [KnowledgeBase.add_clause] at hget ⊢
    rcases lt_trichotomy i kb.clauses.length with hi | hi | hi
    · rw [List.getElem?_append_left hi] at hget
      have hcount := hocc s i c' hget
      rw [List.map_append, List.count_append, hcount]
      have hzero : ((List.map (fun _ => (kb.clauses.length, c))
          (c.premise_literals.filter (fun l => l = s))).map Prod.fst).count i = 0 := by
        rw [List.count_eq_zero]
        intro hmem
        rw [List.map_map] at hmem
        rcases List.mem_map.mp hmem with ⟨x, _, hx⟩
        simp only [Function.comp] at hx
        exact (Nat.ne_of_lt hi).symm hx
      rw [hzero]
      simp
    · subst hi
      rw [List.getElem?_concat_length] at hget
      have hc : c' = c := by injection hget with h; exact h.symm
      subst hc
      rw [List.map_append, List.count_append]
      have hzero : ((kb.clauses_by_premise s).map Prod.fst).count kb.clauses.length = 0 := by
        rw [List.count_eq_zero]
        intro hmem
        rcases List.mem_map.mp hmem with ⟨⟨j, d⟩, hjd, hj⟩
        simp only at hj
        subst hj
        have := hidx s kb.clauses.length d hjd
        rcases List.getElem?_eq_some.mp this with ⟨hlt, _⟩
        exact lt_irrefl _ hlt
      rw [hzero]
      rw [List.map_map]
      have hrepl : (c'.premise_literals.filter (fun l => l = s)).map
          (Prod.fst ∘ fun _ => (kb.clauses.length, c')) =
          List.replicate (c'.premise_literals.filter (fun l => l = s)).length
            kb.clauses.length := by
        simp [Function.comp_def, List.map_const']
      rw [hrepl, List.count_replicate]
      simp
    · exfalso
      have hlen : (kb.clauses ++ [c]).length ≤ i := by
        simp [Nat.succ_le_of_lt hi]
      rw [List.getElem?_eq_none hlen] at hget
      cases hget
  · intro s
    simp only [KnowledgeBase.add_clause]
    by_cases hfact : c.premise_literals = []
    · by_cases hin : c.conclusion_literal ∈ kb.facts
      · simp only [hfact, if_true, hin, if_pos]
        rw [hfacts]
        constructor
        · rintro ⟨d, hd, hdp, hdc⟩
          exact ⟨d, by simp [hd], hdp, hdc⟩
        · rintro ⟨d, hd, hdp, hdc⟩
          rcases List.mem_append.mp hd with h1 | h2
          · exact ⟨d, h1, hdp, hdc⟩
          · have : d = c := by simpa using h2
            subst this
            subst hdc
            exact (hfacts _).mp hin
      · simp only [hfact, if_true, hin, if_neg, not_false_iff]
        rw [List.mem_append]
        rw [hfacts]
        constructor
        · rintro (⟨d, hd, hdp, hdc⟩ | hs)
          · exact ⟨d, by simp [hd], hdp, hdc⟩
          · have : s = c.conclusion_literal := by simpa using hs
            subst this
            exact ⟨c, by simp, hfact, rfl⟩
        · rintro ⟨d, hd, hdp, hdc⟩
          rcases List.mem_append.mp hd with h1 | h2
          · exact Or.inl ⟨d, h1, hdp, hdc⟩
          · have : d = c := by simpa using h2
            subst this
            subst hdc
            simp
    · simp only [hfact, if_neg, if_false]
      rw [hfacts]
      constructor
      · rintro ⟨d, hd, hdp, hdc⟩
        exact ⟨d, by simp [hd], hdp, hdc⟩
      · rintro ⟨d, hd, hdp, hdc⟩
        rcases List.mem_append.mp hd with h1 | h2
        · exact ⟨d, h1, hdp, hdc⟩
        · have : d = c := by simpa using h2
          subst this
          exact absurd hdp hfact

lemma kbinv_foldl (cs : List Clause) :
    ∀ kb, KBInv kb → KBInv (cs.foldl KnowledgeBase.add_clause kb) := by
  induction cs with
  | nil => intro kb h; exact h
  | cons c t ih =>
    intro kb h
    exact ih _ (kbinv_add h c)

lemma kbinv_of_reachable {kb : KnowledgeBase} (h : Reachable kb) : KBInv kb := by
  obtain ⟨cs, rfl⟩ := h
  exact kbinv_foldl cs _ kbinv_empty

/-! ### Lemmas about the inner clause-firing fold -/

lemma fireStep_eq (cnt : Nat → Int) (ag : List String) (e : Nat × Clause) :
    fireStep (cnt, ag) e =
      (fun j => if j = e.1 then cnt e.1 - 1 else cnt j,
        if cnt e.1 - 1 = 0 then ag ++ [e.2.conclusion_literal] else ag) := by
  by_cases h : cnt e.1 - 1 = 0 <;> simp [fireStep, h]

lemma fireStep_foldl_agenda_ext (entries : List (Nat × Clause)) :
    ∀ (cnt : Nat → Int) (ag : List String),
      ∃ ext, (entries.foldl fireStep (cnt, ag)).2 = ag ++ ext := by
  induction entries with
  | nil => intro cnt ag; exact ⟨[], by simp⟩
  | cons e t ih =>
    intro cnt ag
    rw [List.foldl_cons, fireStep_eq]
    by_cases h : cnt e.1 - 1 = 0
    · rw [if_pos h]
      obtain ⟨ext, hext⟩ := ih (fun j => if j = e.1 then cnt e.1 - 1 else cnt j)
        (ag ++ [e.2.conclusion_literal])
      refine ⟨e.2.conclusion_literal :: ext, ?_⟩
      rw [hext, List.append_assoc]
      rfl
    · rw [if_neg h]
      exact ih _ ag

lemma fireStep_foldl_agenda_mem {entries : List (Nat × Clause)} {cnt : Nat → Int}
    {ag : List String} {s : String} (h : s ∈ ag) :
    s ∈ (entries.foldl fireStep (cnt, ag)).2 := by
  obtain ⟨ext, hext⟩ := fireStep_foldl_agenda_ext entries cnt ag
  rw [hext]
  exact List.mem_append_left _ h

lemma fireStep_foldl_count (entries : List (Nat × Clause)) :
    ∀ (cnt : Nat → Int) (ag : List String) (j : Nat),
      (entries.foldl fireStep (cnt, ag)).1 j =
        cnt j - ((entries.map Prod.fst).count j : Int) := by
  induction entries with
  | nil => intro cnt ag j; simp
  | cons e t ih =>
    intro cnt ag j
    rw [List.foldl_cons, fireStep_eq]
    rw [ih]
    by_cases hj : j = e.1
    · subst hj
      simp only [if_pos rfl, List.map_cons, List.count_cons, beq_self_eq_true, if_true]
      push_cast
      ring
    · simp only [if_neg hj, List.map_cons, List.count_cons]
      have hne : (e.1 == j) = false := by
        simp only [beq_eq_false_iff_ne, ne_eq]
        intro hcon
        exact hj hcon.symm
      rw [hne]
      simp

lemma fireStep_foldl_agenda_len (entries : List (Nat × Clause)) :
    ∀ (cnt : Nat → Int) (ag : List String),
      (entries.foldl fireStep (cnt, ag)).2.length ≤ ag.length + entries.length := by
  induction entries with
  | nil => intro cnt ag; simp
  | cons e t ih =>
    intro cnt ag
    rw [List.foldl_cons, fireStep_eq]
    by_cases h : cnt e.1 - 1 = 0
    · rw [if_pos h]
      have hrec := ih (fun j => if j = e.1 then cnt e.1 - 1 else cnt j)
        (ag ++ [e.2.conclusion_literal])
      simp only [List.length_append, List.length_cons, List.length_nil] at hrec ⊢
      omega
    · rw [if_neg h]
      have hrec := ih (fun j => if j = e.1 then cnt e.1 - 1 else cnt j) ag
      simp only [List.length_cons] at hrec ⊢
      omega

lemma fireStep_foldl_sound (P : String → Prop) (entries : List (Nat × Clause)) :
    ∀ (cnt : Nat → Int) (ag : List String),
      (∀ e ∈ entries, cnt e.1 ≤ ((entries.map Prod.fst).count e.1 : Int) →
        P e.2.conclusion_literal) →
      (∀ s ∈ ag, P s) →
      ∀ s ∈ (entries.foldl fireStep (cnt, ag)).2, P s := by
  induction entries with
  | nil => intro cnt ag _ hag s hs; exact hag s hs
  | cons e t ih =>
    intro cnt ag hfire hag s hs
    rw [List.foldl_cons, fireStep_eq] at hs
    have hfire' : ∀ d ∈ t, (fun j => if j = e.1 then cnt e.1 - 1 else cnt j) d.1 ≤
        ((t.map Prod.fst).count d.1 : Int) → P d.2.conclusion_literal := by
      intro d hd hle
      simp only at hle
      by_cases hde : d.1 = e.1
      · rw [hde] at hle
        simp only [if_pos rfl] at hle
        refine hfire d (List.mem_cons_of_mem _ hd) ?_
        rw [hde]
        simp only [List.map_cons, List.count_cons, beq_self_eq_true, if_true]
        push_cast
        omega
      · rw [if_neg hde] at hle
        refine hfire d (List.mem_cons_of_mem _ hd) ?_
        simp only [List.map_cons, List.count_cons]
        have hne : (e.1 == d.1) = false := by
          simp only [beq_eq_false_iff_ne, ne_eq]
          intro hcon
          exact hde hcon.symm
        rw [hne]
        simpa using hle
    by_cases h : cnt e.1 - 1 = 0
    · rw [if_pos h] at hs
      have hag' : ∀ u ∈ ag ++ [e.2.conclusion_literal], P u := by
        intro u hu
        rcases List.mem_append.mp hu with h1 | h2
        · exact hag u h1
        · have hu' : u = e.2.conclusion_literal := by simpa using h2
          subst hu'
          refine hfire e (List.mem_cons_self _ _) ?_
          simp only [List.map_cons, List.count_cons, beq_self_eq_true, if_true]
          push_cast
          omega
      exact ih _ _ hfire' hag' s hs
    · rw [if_neg h] at hs
      exact ih _ _ hfire' hag s hs

lemma fireStep_foldl_zero (entries : List (Nat × Clause)) :
    ∀ (cnt : Nat → Int) (ag : List String) (i : Nat), 0 < cnt i →
      (entries.foldl fireStep (cnt, ag)).1 i = 0 →
      ∃ c, (i, c) ∈ entries ∧
        c.conclusion_literal ∈ (entries.foldl fireStep (cnt, ag)).2 := by
  induction entries with
  | nil =>
    intro cnt ag i hpos hz
    simp at hz
    omega
  | cons e t ih =>
    intro cnt ag i hpos hz
    rw [List.foldl_cons, fireStep_eq] at hz ⊢
    by_cases hie : i = e.1
    · by_cases h : cnt e.1 - 1 = 0
      · rw [if_pos h]
        refine ⟨e.2, ?_, fireStep_foldl_agenda_mem (by simp)⟩
        rw [hie]
        exact List.mem_cons_self _ _
      · rw [if_neg h] at hz ⊢
        rw [hie] at hpos
        have hpos' : 0 < (fun j => if j = e.1 then cnt e.1 - 1 else cnt j) i := by
          simp only [hie, if_pos rfl]
          omega
        obtain ⟨c, hc, hmem⟩ := ih _ _ i hpos' hz
        exact ⟨c, List.mem_cons_of_mem _ hc, hmem⟩
    · have hpos' : 0 < (fun j => if j = e.1 then cnt e.1 - 1 else cnt j) i := by
        simp only [if_neg hie]
        exact hpos
      by_cases h : cnt e.1 - 1 = 0
      · rw [if_pos h] at hz ⊢
        obtain ⟨c, hc, hmem⟩ := ih _ _ i hpos' hz
        exact ⟨c, List.mem_cons_of_mem _ hc, hmem⟩
      · rw [if_neg h] at hz ⊢
        obtain ⟨c, hc, hmem⟩ := ih _ _ i hpos' hz
        exact ⟨c, List.mem_cons_of_mem _ hc, hmem⟩

/-! ### Counting helper lemmas -/

lemma countP_le_of_imp_rev {α : Type} {l : List α} {p q : α → Bool}
    (himp : ∀ a ∈ l, p a = true → q a = true)
    (hle : l.countP q ≤ l.countP p) :
    ∀ a ∈ l, q a = true → p a = true := by
  induction l with
  | nil =>
    intro a ha
    cases ha
  | cons b t ih =>
    have hmono : t.countP p ≤ t.countP q :=
      List.countP_mono_left (fun a ha hpa => himp a (List.mem_cons_of_mem _ ha) hpa)
    rw [List.countP_cons, List.countP_cons] at hle
    have himp' : ∀ a ∈ t, p a = true → q a = true :=
      fun a ha hpa => himp a (List.mem_cons_of_mem _ ha) hpa
    by_cases hpb : p b = true
    · have hqb : q b = true := himp b (List.mem_cons_self _ _) hpb
      rw [if_pos hpb, if_pos hqb] at hle
      intro a ha hqa
      rcases List.mem_cons.mp ha with rfl | hat
      · exact hpb
      · exact ih himp' (by omega) a hat hqa
    · rw [if_neg hpb] at hle
      by_cases hqb : q b = true
      · rw [if_pos hqb] at hle
        intro a ha hqa
        exfalso
        omega
      · rw [if_neg hqb] at hle
        intro a ha hqa
        rcases List.mem_cons.mp ha with rfl | hat
        · exact absurd hqa hqb
        · exact ih himp' (by omega) a hat hqa

lemma countP_update_false (l : List String) (inf : String → Bool) (p : String)
    (hp : inf p = false) :
    l.countP (fun t => (if t = p then true else inf t) = false) +
      l.countP (fun t => t = p) = l.countP (fun t => inf t = false) := by
  induction l with
  | nil => rfl
  | cons a t ih =>
    rw [List.countP_cons, List.countP_cons, List.countP_cons]
    by_cases hap : a = p
    · have h1 : (decide ((if a = p then true else inf a) = false)) = false := by
        rw [if_pos hap]; simp
      have h2 : (decide (a = p)) = true := by simp [hap]
      have h3 : (decide (inf a = false)) = true := by rw [hap, hp]; simp
      rw [h1, h2, h3]
      simp only [Bool.false_eq_true, if_false, if_true]
      omega
    · have h1 : (decide ((if a = p then true else inf a) = false)) =
          decide (inf a = false) := by
        rw [if_neg hap]
      have h2 : (decide (a = p)) = false := by simp [hap]
      rw [h1, h2]
      simp only [Bool.false_eq_true, if_false]
      omega

/-! ### Loop invariants of the forward-chaining run -/

/-- Invariants of the per-run state maintained across the pop/process loop of
`forward_chaining`: all agenda and path symbols are derivable; a symbol is
inferred exactly when it is on the path; the count of a clause equals the
number of its premise occurrences not yet inferred; and every clause whose
count has reached zero has its conclusion on the agenda or inferred. -/
structure LoopInv (kb : KnowledgeBase) (st : FCState) : Prop where
  agenda_deriv : ∀ s ∈ st.agenda, derivable kb s
  path_deriv : ∀ s ∈ st.path, derivable kb s
  inf_path : ∀ s, st.inferred s = true ↔ s ∈ st.path
  count_inv : ∀ i c, kb.clauses[i]? = some c →
    st.count i =
      (((c.premise_literals.filter (fun t => st.inferred t = false)).length : Nat) : Int)
  zero_pushed : ∀ i c, kb.clauses[i]? = some c → st.count i = 0 →
    c.conclusion_literal ∈ st.agenda ∨ st.inferred c.conclusion_literal = true

lemma loopinv_init {kb : KnowledgeBase} (hkb : KBInv kb) : LoopInv kb (initState kb) := by
  refine ⟨?_, ?_, ?_, ?_, ?_⟩
  · intro s hs
    obtain ⟨c, hc, hprem, hconc⟩ := (hkb.facts_iff s).mp hs
    subst hconc
    refine derivable.fire c hc ?_
    intro t ht
    rw [hprem] at ht
    cases ht
  · intro s hs
    cases hs
  · intro s
    simp [initState]
  · intro i c hget
    simp only [initState, initCount]
    rw [List.getD_eq_getElem?_getD, hget]
    simp
  · intro i c hget hz
    simp only [initState, initCount] at hz
    rw [List.getD_eq_getElem?_getD, hget] at hz
    simp only [Option.getD_some] at hz
    have hlen : c.premise_literals.length = 0 := by exact_mod_cast hz
    have hprem : c.premise_literals = [] := List.length_eq_zero.mp hlen
    left
    refine (hkb.facts_iff c.conclusion_literal).mpr ?_
    obtain ⟨hlt, hc⟩ := List.getElem?_eq_some.mp hget
    exact ⟨c, hc ▸ List.getElem_mem hlt, hprem, rfl⟩

lemma loopinv_skip {kb : KnowledgeBase} {st : FCState} {p : String} {rest : List String}
    (h : LoopInv kb st) (hag : st.agenda = p :: rest) (hinf : st.inferred p = true) :
    LoopInv kb { st with agenda := rest } := by
  obtain ⟨hA, hP, hI, hC, hZ⟩ := h
  refine ⟨?_, hP, hI, hC, ?_⟩
  · intro s hs
    exact hA s (by rw [hag]; exact List.mem_cons_of_mem _ hs)
  · intro i c hget hz
    rcases hZ i c hget hz with hmem | hi
    · rw [hag] at hmem
      rcases List.mem_cons.mp hmem with heq | hmem'
      · exact Or.inr (heq ▸ hinf)
      · exact Or.inl hmem'
    · exact Or.inr hi

lemma loopinv_fire {kb : KnowledgeBase} {st : FCState} {p : String} {rest : List String}
    (hkb : KBInv kb) (h : LoopInv kb st) (hag : st.agenda = p :: rest)
    (hinf : st.inferred p = false) :
    LoopInv kb
      { count := ((kb.clauses_by_premise p).foldl fireStep (st.count, rest)).1
        inferred := fun s => if s = p then true else st.inferred s
        agenda := ((kb.clauses_by_premise p).foldl fireStep (st.count, rest)).2
        path := st.path ++ [p] } := by
  obtain ⟨hA, hP, hI, hC, hZ⟩ := h
  have hpd : derivable kb p := hA p (by rw [hag]; exact List.mem_cons_self _ _)
  have hfire : ∀ e ∈ kb.clauses_by_premise p,
      st.count e.1 ≤ (((kb.clauses_by_premise p).map Prod.fst).count e.1 : Int) →
      derivable kb e.2.conclusion_literal := by
    rintro ⟨i, c⟩ he hle
    simp only at hle ⊢
    have hget : kb.clauses[i]? = some c := hkb.idx_ok p i c he
    have hocc := hkb.bucket_occ p i c hget
    have hcnt := hC i c hget
    rw [hcnt, hocc] at hle
    have hleN : (c.premise_literals.filter (fun t => st.inferred t = false)).length ≤
        (c.premise_literals.filter (fun l => l = p)).length := by exact_mod_cast hle
    have hall : ∀ t ∈ c.premise_literals, derivable kb t := by
      intro t ht
      by_cases hti : st.inferred t = true
      · exact hP t ((hI t).mp hti)
      · have htf : st.inferred t = false := by
          cases hb : st.inferred t
          · rfl
          · exact absurd hb hti
        have himp : ∀ a ∈ c.premise_literals,
            (decide (a = p)) = true → (decide (st.inferred a = false)) = true := by
          intro a _ hap
          have haa : a = p := of_decide_eq_true hap
          subst haa
          simp [hinf]
        have hle' : c.premise_literals.countP (fun t => st.inferred t = false) ≤
            c.premise_literals.countP (fun t => t = p) := by
          rw [List.countP_eq_length_filter, List.countP_eq_length_filter]
          exact hleN
        have hres := countP_le_of_imp_rev himp hle' t ht (by simp [htf])
        have htp : t = p := of_decide_eq_true hres
        subst htp
        exact hpd
    obtain ⟨hlt, hcc⟩ := List.getElem?_eq_some.mp hget
    exact derivable.fire c (hcc ▸ List.getElem_mem hlt) hall
  refine ⟨?_, ?_, ?_, ?_, ?_⟩
  · intro s hs
    refine fireStep_foldl_sound (derivable kb) _ st.count rest hfire ?_ s hs
    intro u hu
    exact hA u (by rw [hag]; exact List.mem_cons_of_mem _ hu)
  · intro s hs
    rcases List.mem_append.mp hs with h1 | h2
    · exact hP s h1
    · have : s = p := by simpa using h2
      subst this
      exact hpd
  · intro s
    by_cases hsp : s = p
    · subst hsp
      simp
    · simp only [if_neg hsp]
      rw [hI s]
      constructor
      · intro hmem
        exact List.mem_append_left _ hmem
      · intro hmem
        rcases List.mem_append.mp hmem with h1 | h2
        · exact h1
        · exact absurd (by simpa using h2) hsp
  · intro i c hget
    show (List.foldl fireStep (st.count, rest) (kb.clauses_by_premise p)).1 i =
      ((c.premise_literals.filter
        (fun t => (if t = p then true else st.inferred t) = false)).length : Int)
    have hnew := fireStep_foldl_count (kb.clauses_by_premise p) st.count rest i
    rw [hnew, hC i c hget, hkb.bucket_occ p i c hget]
    have hupdate := countP_update_false c.premise_literals st.inferred p hinf
    rw [List.countP_eq_length_filter, List.countP_eq_length_filter,
      List.countP_eq_length_filter] at hupdate
    have hgoal : ((c.premise_literals.filter
        (fun t => (if t = p then true else st.inferred t) = false)).length : Int) =
        ((c.premise_literals.filter (fun t => st.inferred t = false)).length : Int) -
          ((c.premise_literals.filter (fun l => l = p)).length : Int) := by
      omega
    exact hgoal.symm
  · intro i c hget hz
    by_cases h0 : st.count i = 0
    · rcases hZ i c hget h0 with hmem | hi
      · rw [hag] at hmem
        rcases List.mem_cons.mp hmem with heq | hmem'
        · right
          rw [heq]
          simp
        · left
          exact fireStep_foldl_agenda_mem hmem'
      · right
        by_cases hcp : c.conclusion_literal = p
        · simp [hcp]
        · simp [hcp, hi]
    · have hpos : 0 < st.count i := by
        rw [hC i c hget] at h0 ⊢
        omega
      obtain ⟨c', hmem, hconc⟩ :=
        fireStep_foldl_zero (kb.clauses_by_premise p) st.count rest i hpos hz
      have hget' : kb.clauses[i]? = some c' := hkb.idx_ok p i c' hmem
      have hcc : c' = c := by
        rw [hget] at hget'
        injection hget' with h'
        exact h'.symm
      left
      rw [← hcc]
      exact hconc

lemma loopinv_exit {kb : KnowledgeBase} {st : FCState}
    (h : LoopInv kb st) (hag : st.agenda = []) :
    ∀ s, s ∈ st.path ↔ derivable kb s := by
  obtain ⟨hA, hP, hI, hC, hZ⟩ := h
  intro s
  constructor
  · exact hP s
  · intro hd
    induction hd with
    | fire c hc hp ih =>
      obtain ⟨i, hlt, hci⟩ := List.mem_iff_getElem.mp hc
      have hget : kb.clauses[i]? = some c :=
        List.getElem?_eq_some.mpr ⟨hlt, hci⟩
      have hz : st.count i = 0 := by
        rw [hC i c hget]
        have hfe : c.premise_literals.filter (fun t => st.inferred t = false) = [] := by
          rw [List.filter_eq_nil_iff]
          intro a ha
          have hmem : a ∈ st.path := ih a ha
          have hatrue : st.inferred a = true := (hI a).mpr hmem
          simp [hatrue]
        rw [hfe]
        rfl
      rcases hZ i c hget hz with hmem | hi
      · rw [hag] at hmem
        cases hmem
      · exact (hI _).mp hi

lemma fcLoop_false_spec {kb : KnowledgeBase} (hkb : KBInv kb) (q : String) :
    ∀ (fuel : Nat) (st : FCState), LoopInv kb st →
      ∀ pth, fcLoop kb.clauses_by_premise q fuel st = some (false, pth) →
        ∀ s, s ∈ pth ↔ derivable kb s := by
  intro fuel
  induction fuel with
  | zero =>
    intro st _ pth hrun
    cases hrun
  | succ n ih =>
    intro st hinv pth hrun
    obtain ⟨cnt, inf, ag, pth0⟩ := st
    cases ag with
    | nil =>
      simp only [fcLoop] at hrun
      have hpth : pth0 = pth := by
        injection hrun with h'
        injection h' with h1 h2
      subst hpth
      exact loopinv_exit hinv rfl
    | cons p rest =>
      simp only [fcLoop] at hrun
      by_cases hq : p = q
      · rw [if_pos hq] at hrun
        injection hrun with h'
        injection h' with h1 h2
        cases h1
      · rw [if_neg hq] at hrun
        by_cases hi : inf p = true
        · rw [if_pos hi] at hrun
          exact ih _ (loopinv_skip hinv rfl hi) pth hrun
        · rw [if_neg hi] at hrun
          have hif : inf p = false := by
            cases hb : inf p
            · rfl
            · exact absurd hb hi
          exact ih _ (loopinv_fire hkb hinv rfl hif) pth hrun

/-! ### Termination of the pop/process loop -/

/-- Total size of the premise-index buckets of the not-yet-inferred premise
symbols: the potential of the remaining run. -/
def uSum (kb : KnowledgeBase) (inf : String → Bool) : Nat :=
  (((premSymbols kb).filter (fun s => inf s = false)).map
    (fun s => (kb.clauses_by_premise s).length)).sum

lemma bucket_nonempty_mem_premSymbols {kb : KnowledgeBase} (hkb : KBInv kb)
    (s : String) (hne : kb.clauses_by_premise s ≠ []) : s ∈ premSymbols kb := by
  obtain ⟨⟨i, c⟩, hmem⟩ := List.exists_mem_of_ne_nil _ hne
  have hget : kb.clauses[i]? = some c := hkb.idx_ok s i c hmem
  have hocc := hkb.bucket_occ s i c hget
  have hpos : 0 < ((kb.clauses_by_premise s).map Prod.fst).count i := by
    rw [List.count_pos_iff]
    exact List.mem_map.mpr ⟨(i, c), hmem, rfl⟩
  rw [hocc] at hpos
  obtain ⟨t, ht, hts⟩ := List.countP_pos.mp (by
    rw [List.countP_eq_length_filter]
    exact hpos)
  have hts' : t = s := of_decide_eq_true hts
  subst hts'
  rw [premSymbols, List.mem_dedup, List.mem_flatten]
  obtain ⟨hlt, hci⟩ := List.getElem?_eq_some.mp hget
  exact ⟨c.premise_literals, List.mem_map.mpr ⟨c, hci ▸ List.getElem_mem hlt, rfl⟩, ht⟩

lemma sum_filter_update {l : List String} (hnd : l.Nodup) {inf : String → Bool}
    {p : String} (hmem : p ∈ l) (hp : inf p = false) (f : String → Nat) :
    ((l.filter (fun s => (if s = p then true else inf s) = false)).map f).sum + f p =
      ((l.filter (fun s => inf s = false)).map f).sum := by
  induction l with
  | nil => cases hmem
  | cons a t ih =>
    rw [List.filter_cons, List.filter_cons]
    by_cases hap : a = p
    · subst hap
      have h1 : (decide ((if a = a then true else inf a) = false)) = false := by
        simp
      have h2 : (decide (inf a = false)) = true := by
        simp [hp]
      rw [h1, h2]
      rw [if_neg Bool.false_ne_true, if_pos rfl]
      simp only [List.map_cons, List.sum_cons]
      have hnt : a ∉ t := (List.nodup_cons.mp hnd).1
      have hcongr : t.filter (fun s => (if s = a then true else inf s) = false) =
          t.filter (fun s => inf s = false) := by
        apply List.filter_congr
        intro x hx
        have hxa : x ≠ a := fun hcon => hnt (hcon ▸ hx)
        rw [if_neg hxa]
      rw [hcongr]
      omega
    · have hmem' : p ∈ t := by
        rcases List.mem_cons.mp hmem with h1 | h2
        · exact absurd h1.symm hap
        · exact h2
      have hnd' : t.Nodup := (List.nodup_cons.mp hnd).2
      have hpred : (decide ((if a = p then true else inf a) = false)) =
          (decide (inf a = false)) := by
        rw [if_neg hap]
      rw [hpred]
      cases hb : (decide (inf a = false)) with
      | false =>
        rw [if_neg Bool.false_ne_true, if_neg Bool.false_ne_true]
        exact ih hnd' hmem'
      | true =>
        rw [if_pos rfl, if_pos rfl]
        simp only [List.map_cons, List.sum_cons]
        have := ih hnd' hmem'
        omega

lemma sum_filter_update_not_mem (inf : String → Bool) {l : List String} {p : String}
    (hmem : p ∉ l) (f : String → Nat) :
    ((l.filter (fun s => (if s = p then true else inf s) = false)).map f).sum =
      ((l.filter (fun s => inf s = false)).map f).sum := by
  have hcongr : l.filter (fun s => (if s = p then true else inf s) = false) =
      l.filter (fun s => inf s = false) := by
    apply List.filter_congr
    intro x hx
    have hxp : x ≠ p := fun hcon => hmem (hcon ▸ hx)
    rw [if_neg hxp]
  rw [hcongr]

lemma fcLoop_total {kb : KnowledgeBase} (hkb : KBInv kb) (q : String) :
    ∀ (fuel : Nat) (st : FCState),
      st.agenda.length + uSum kb st.inferred < fuel →
      (fcLoop kb.clauses_by_premise q fuel st).isSome = true := by
  intro fuel
  induction fuel with
  | zero =>
    intro st h
    omega
  | succ n ih =>
    intro st hlt
    obtain ⟨cnt, inf, ag, pth⟩ := st
    cases ag with
    | nil => simp [fcLoop]
    | cons p rest =>
      simp only [fcLoop]
      by_cases hq : p = q
      · rw [if_pos hq]
        rfl
      · rw [if_neg hq]
        by_cases hi : inf p = true
        · rw [if_pos hi]
          apply ih
          show rest.length + uSum kb inf < n
          simp only [List.length_cons] at hlt
          omega
        · rw [if_neg hi]
          have hif : inf p = false := by
            cases hb : inf p
            · rfl
            · exact absurd hb hi
          apply ih
          show ((kb.clauses_by_premise p).foldl fireStep (cnt, rest)).2.length +
            uSum kb (fun s => if s = p then true else inf s) < n
          have hflen := fireStep_foldl_agenda_len (kb.clauses_by_premise p) cnt rest
          simp only [List.length_cons] at hlt
          by_cases hpm : p ∈ premSymbols kb
          · have hupd := sum_filter_update (List.nodup_dedup _) hpm hif
              (fun s => (kb.clauses_by_premise s).length)
            simp only [uSum, premSymbols] at hupd ⊢
            simp only [uSum, premSymbols] at hlt
            omega
          · have hbe : kb.clauses_by_premise p = [] := by
              by_contra hne
              exact hpm (bucket_nonempty_mem_premSymbols hkb p hne)
            have hupd := sum_filter_update_not_mem inf hpm
              (fun s => (kb.clauses_by_premise s).length)
            rw [hbe]
            simp only [List.foldl_nil]
            simp only [uSum] at hlt ⊢
            omega

/-- On a reachable knowledge base, the `fcFuel` iteration budget always
suffices: `forward_chaining` is the value of the completed loop. -/
lemma forward_chaining_run {kb : KnowledgeBase} (hkb : KBInv kb) (q : String) :
    fcLoop kb.clauses_by_premise q (fcFuel kb) (initState kb) =
      some (forward_chaining kb q) := by
  have hmeasure : (initState kb).agenda.length + uSum kb (initState kb).inferred <
      fcFuel kb := by
    show kb.facts.length + uSum kb (fun _ => false) < fcFuel kb
    have huSum : uSum kb (fun _ => false) =
        ((premSymbols kb).map (fun s => (kb.clauses_by_premise s).length)).sum := by
      rw [uSum]
      have : (premSymbols kb).filter (fun s => (false = false : Prop)) = premSymbols kb := by
        rw [List.filter_eq_self]
        intro a _
        simp
      rw [this]
    rw [huSum, fcFuel]
    omega
  have hsome := fcLoop_total hkb q (fcFuel kb) (initState kb) hmeasure
  obtain ⟨r, hr⟩ := Option.isSome_iff_exists.mp hsome
  rw [hr, forward_chaining, hr]
  rfl

/-! ### Example knowledge bases from the specification and the test suite -/

/-- The order-sensitivity knowledge base of §8: {fact a; a→b; a∧b→c; b→d},
inserted in this order (also the `setUp` of `test_forward_chaining.py`). -/
def kb4 : KnowledgeBase :=
  KnowledgeBase.ofClauses
    [⟨[], "a", 0⟩, ⟨["a"], "b", 0⟩, ⟨["a", "b"], "c", 0⟩, ⟨["b"], "d", 0⟩]

/-- The cycle-safety knowledge base of §8: {fact a; a→b; b→c; c→a}. -/
def kbCyc : KnowledgeBase :=
  KnowledgeBase.ofClauses
    [⟨[], "a", 0⟩, ⟨["a"], "b", 0⟩, ⟨["b"], "c", 0⟩, ⟨["c"], "a", 0⟩]

/-- A knowledge base with the two facts a and b, inserted in this order. -/
def kbAB : KnowledgeBase :=
  KnowledgeBase.ofClauses [⟨[], "a", 0⟩, ⟨[], "b", 0⟩]

/-- A knowledge base where a non-fact clause shares its conclusion with a
fact: {fact a; b→a}. -/
def kb7 : KnowledgeBase :=
  KnowledgeBase.ofClauses [⟨[], "a", 0⟩, ⟨["b"], "a", 0⟩]

/-! ### Claim C2: termination -/

/-- C2: on every reachable knowledge base and every query, the pop/process
loop of `forward_chaining` finishes — it completes within the a-priori
`fcFuel` iteration budget, cyclic clause sets included. -/
theorem forward_chaining_terminates (kb : KnowledgeBase) (q : String)
    (hkb : Reachable kb) :
    (fcLoop kb.clauses_by_premise q (fcFuel kb) (initState kb)).isSome = true := by
  have hinv := kbinv_of_reachable hkb
  rw [forward_chaining_run hinv q]
  rfl

/-- Witness for C2: the loop completes on the cyclic knowledge base
{fact a; a→b; b→c; c→a} with the unreachable query d. -/
theorem forward_chaining_terminates_witness :
    Reachable kbCyc ∧
      (fcLoop kbCyc.clauses_by_premise "d" (fcFuel kbCyc) (initState kbCyc)).isSome
        = true :=
  ⟨⟨_, rfl⟩, forward_chaining_terminates kbCyc "d" ⟨_, rfl⟩⟩

/-! ### Claim C1: the false verdict returns exactly the fixed point -/

/-- C1: whenever `forward_chaining` returns entailed = false on a reachable
knowledge base, a symbol is on the returned path exactly when it is derivable
from the zero-premise clauses by repeated clause firing (the forward-chaining
fixed point). -/
theorem forward_chaining_false_closure (kb : KnowledgeBase) (q : String)
    (hkb : Reachable kb) (s : String)
    (hfalse : (forward_chaining kb q).1 = false) :
    s ∈ (forward_chaining kb q).2 ↔ derivable kb s := by
  have hinv := kbinv_of_reachable hkb
  have hrun := forward_chaining_run hinv q
  have hr2 : fcLoop kb.clauses_by_premise q (fcFuel kb) (initState kb) =
      some (false, (forward_chaining kb q).2) := by
    rw [hrun]
    congr 1
    exact Prod.ext hfalse rfl
  exact fcLoop_false_spec hinv q _ _ (loopinv_init hinv) _ hr2 s

/-- Witness for C1: on kb4 the query e is not entailed, and the symbol c is
both on the returned path and derivable. -/
theorem forward_chaining_false_closure_witness :
    Reachable kb4 ∧ (forward_chaining kb4 "e").1 = false ∧
      ("c" ∈ (forward_chaining kb4 "e").2 ↔ derivable kb4 "c") :=
  ⟨⟨_, rfl⟩, by decide,
    forward_chaining_false_closure kb4 "e" ⟨_, rfl⟩ "c" (by decide)⟩

/-! ### Claim C3: querying a fact -/

lemma mem_split_first {l : List String} {q : String} (h : q ∈ l) :
    ∃ l1 l2, l = l1 ++ q :: l2 ∧ ∀ s ∈ l1, s ≠ q := by
  induction l with
  | nil => cases h
  | cons a t ih =>
    by_cases haq : a = q
    · exact ⟨[], t, by rw [haq]; rfl, by simp⟩
    · have h' : q ∈ t := by
        rcases List.mem_cons.mp h with h1 | h2
        · exact absurd h1.symm haq
        · exact h2
      obtain ⟨l1, l2, heq, hne⟩ := ih h'
      refine ⟨a :: l1, l2, by simp [heq], ?_⟩
      intro s hs
      rcases List.mem_cons.mp hs with h1 | h2
      · exact h1 ▸ haq
      · exact hne s h2

lemma fcLoop_query_in_agenda (bucket : String → List (Nat × Clause)) (q : String) :
    ∀ (l1 : List String) (fuel : Nat) (l2 : List String) (st : FCState),
      (∀ s ∈ l1, s ≠ q) → st.agenda = l1 ++ q :: l2 → l1.length < fuel →
      ∃ pre, (∀ s ∈ pre, s ∈ l1) ∧
        fcLoop bucket q fuel st = some (true, st.path ++ (pre ++ [q])) := by
  intro l1
  induction l1 with
  | nil =>
    intro fuel l2 st _ hag hfuel
    obtain ⟨n, rfl⟩ : ∃ n, fuel = n + 1 := ⟨fuel - 1, by omega⟩
    obtain ⟨cnt, inf, ag, pth⟩ := st
    simp only [List.nil_append] at hag
    subst hag
    refine ⟨[], by simp, ?_⟩
    simp [fcLoop]
  | cons a t ih =>
    intro fuel l2 st hne hag hfuel
    obtain ⟨n, rfl⟩ : ∃ n, fuel = n + 1 := ⟨fuel - 1, by omega⟩
    obtain ⟨cnt, inf, ag, pth⟩ := st
    simp only [List.cons_append] at hag
    subst hag
    simp only [fcLoop]
    have haq : ¬ a = q := hne a (List.mem_cons_self _ _)
    rw [if_neg haq]
    have hfuel' : t.length < n := by
      simp only [List.length_cons] at hfuel
      omega
    by_cases hi : inf a = true
    · rw [if_pos hi]
      obtain ⟨pre, hpre, hrun⟩ := ih n l2 ⟨cnt, inf, t ++ q :: l2, pth⟩
        (fun s hs => hne s (List.mem_cons_of_mem _ hs)) rfl hfuel'
      exact ⟨pre, fun s hs => List.mem_cons_of_mem _ (hpre s hs), hrun⟩
    · rw [if_neg hi]
      obtain ⟨ext, hext⟩ := fireStep_foldl_agenda_ext (bucket a) cnt (t ++ q :: l2)
      have hagnew : ((bucket a).foldl fireStep (cnt, t ++ q :: l2)).2 =
          t ++ q :: (l2 ++ ext) := by
        rw [hext, List.append_assoc, List.cons_append]
      obtain ⟨pre, hpre, hrun⟩ := ih n (l2 ++ ext)
        ⟨((bucket a).foldl fireStep (cnt, t ++ q :: l2)).1,
          fun s => if s = a then true else inf s,
          ((bucket a).foldl fireStep (cnt, t ++ q :: l2)).2,
          pth ++ [a]⟩
        (fun s hs => hne s (List.mem_cons_of_mem _ hs)) hagnew hfuel'
      refine ⟨a :: pre, ?_, ?_⟩
      · intro s hs
        rcases List.mem_cons.mp hs with h1 | h2
        · exact h1 ▸ List.mem_cons_self _ _
        · exact List.mem_cons_of_mem _ (hpre s h2)
      · rw [hrun]
        congr 2
        rw [List.append_assoc]
        rfl

/-- C3 as stated fails on the code: with the two facts a and b and the query
b, the returned path is [a, b], not the one-element list [b]. -/
theorem fact_query_path_counterexample :
    Reachable kbAB ∧ "b" ∈ kbAB.facts ∧
      forward_chaining kbAB "b" = (true, ["a", "b"]) ∧
      forward_chaining kbAB "b" ≠ (true, ["b"]) :=
  ⟨⟨_, rfl⟩, by decide, by decide, by decide⟩

/-- C3 amended: if the query q is a fact of a reachable knowledge base then
`forward_chaining` returns entailed = true, and the path is some (possibly
empty) list of other fact symbols — the facts the agenda yields before q —
followed by q itself. -/
theorem fact_query_entailed (kb : KnowledgeBase) (q : String)
    (hkb : Reachable kb) (hq : q ∈ kb.facts) :
    (forward_chaining kb q).1 = true ∧
      ∃ pre, (∀ s ∈ pre, s ∈ kb.facts) ∧
        (forward_chaining kb q).2 = pre ++ [q] := by
  have hinv := kbinv_of_reachable hkb
  obtain ⟨l1, l2, heq, hne⟩ := mem_split_first hq
  have hfuel : l1.length < fcFuel kb := by
    have hlen : kb.facts.length = l1.length + (q :: l2).length := by
      rw [heq, List.length_append]
    simp only [List.length_cons] at hlen
    rw [fcFuel]
    omega
  obtain ⟨pre, hpre, hrun⟩ := fcLoop_query_in_agenda kb.clauses_by_premise q l1
    (fcFuel kb) l2 (initState kb) hne heq hfuel
  have hfc := forward_chaining_run hinv q
  rw [hrun] at hfc
  have hres : forward_chaining kb q = (true, pre ++ [q]) := by
    injection hfc with h'
    rw [← h']
    rfl
  refine ⟨by rw [hres], pre, ?_, by rw [hres]⟩
  intro s hs
  have hsl1 : s ∈ l1 := hpre s hs
  rw [heq]
  exact List.mem_append_left _ hsl1

/-- Witness for the amended C3: on the two-fact knowledge base, querying b
succeeds with a path of facts ending in b. -/
theorem fact_query_entailed_witness :
    Reachable kbAB ∧ "b" ∈ kbAB.facts ∧
      ((forward_chaining kbAB "b").1 = true ∧
        ∃ pre, (∀ s ∈ pre, s ∈ kbAB.facts) ∧
          (forward_chaining kbAB "b").2 = pre ++ ["b"]) :=
  ⟨⟨_, rfl⟩, by decide, fact_query_entailed kbAB "b" ⟨_, rfl⟩ (by decide)⟩

/-! ### Claim C4: the §8 order-sensitivity example for query d -/

/-- C4: on KB = {fact a; a→b; a∧b→c; b→d} the code returns the path
[a, b, c, d] for the query d — the symbol c is popped and inferred before d —
and not the [a, b, d] asserted by the specification and by
`test_forward_chaining.py`. -/
theorem forward_chaining_kb4_query_d :
    forward_chaining kb4 "d" = (true, ["a", "b", "c", "d"]) ∧
      forward_chaining kb4 "d" ≠ (true, ["a", "b", "d"]) :=
  ⟨by decide, by decide⟩

/-! ### Claim C7: the `add_clause` invariant -/

/-- C7 as stated fails on the code: in {fact a; b→a} the second clause has
its conclusion a in the facts set but is not a fact, so "a clause is a fact
iff its conclusion is in facts" does not hold right-to-left. -/
theorem kb_invariant_counterexample :
    Reachable kb7 ∧ (⟨["b"], "a", 0⟩ : Clause) ∈ kb7.clauses ∧
      "a" ∈ kb7.facts ∧ (⟨["b"], "a", 0⟩ : Clause).premise_literals ≠ [] :=
  ⟨⟨_, rfl⟩, by decide, by decide, by decide⟩

/-- C7 amended: after any sequence of insertions, (1) every clause is indexed
in the bucket of every symbol of its premise list, and (2) a fact clause's
conclusion is in the facts set, and every member of the facts set is the
conclusion of some zero-premise clause (but a non-fact clause may share a
conclusion with a fact, so membership does not make a clause a fact). -/
theorem kb_invariant (kb : KnowledgeBase) (hkb : Reachable kb) :
    (∀ i c, kb.clauses[i]? = some c →
      ∀ s ∈ c.premise_literals, (i, c) ∈ kb.clauses_by_premise s) ∧
    (∀ s, s ∈ kb.facts ↔
      ∃ c ∈ kb.clauses, c.premise_literals = [] ∧ c.conclusion_literal = s) := by
  have hinv := kbinv_of_reachable hkb
  refine ⟨?_, hinv.facts_iff⟩
  intro i c hget s hs
  have hocc := hinv.bucket_occ s i c hget
  have hpos : 0 < (c.premise_literals.filter (fun l => l = s)).length := by
    rw [← List.countP_eq_length_filter]
    rw [List.countP_pos_iff]
    exact ⟨s, hs, by simp⟩
  rw [← hocc] at hpos
  have hmem : i ∈ (kb.clauses_by_premise s).map Prod.fst :=
    List.count_pos_iff.mp hpos
  obtain ⟨⟨j, d⟩, hjd, hj⟩ := List.mem_map.mp hmem
  simp only at hj
  subst hj
  have hget' := hinv.idx_ok s j d hjd
  rw [hget] at hget'
  injection hget' with h'
  rw [h']
  exact hjd

/-- Witness for the amended C7: in kb7 the clause b→a (index 1) is indexed
under b, and a is in the facts set exactly because of the fact clause. -/
theorem kb_invariant_witness :
    Reachable kb7 ∧ (1, (⟨["b"], "a", 0⟩ : Clause)) ∈ kb7.clauses_by_premise "b" ∧
      ("a" ∈ kb7.facts ↔
        ∃ c ∈ kb7.clauses, c.premise_literals = [] ∧ c.conclusion_literal = "a") :=
  ⟨⟨_, rfl⟩,
    (kb_invariant kb7 ⟨_, rfl⟩).1 1 ⟨["b"], "a", 0⟩ (by decide) "b" (by decide),
    (kb_invariant kb7 ⟨_, rfl⟩).2 "a"⟩

/-! ### Claim C8: the trace variant computes the same verdict and path -/

lemma fireStepT_proj_step (ca : (Nat → Int) × List String × List TraceEntry × Nat)
    (e : Nat × Clause) :
    ((fireStepT ca e).1, (fireStepT ca e).2.1) = fireStep (ca.1, ca.2.1) e := by
  rcases ca with ⟨cnt, ag, tr, stp⟩
  by_cases h : cnt e.1 - 1 = 0 <;> simp [fireStepT, fireStep, h]

lemma fireStepT_proj (entries : List (Nat × Clause)) :
    ∀ (cnt : Nat → Int) (ag : List String) (tr : List TraceEntry) (stp : Nat),
      ((entries.foldl fireStepT (cnt, ag, tr, stp)).1,
        (entries.foldl fireStepT (cnt, ag, tr, stp)).2.1) =
        entries.foldl fireStep (cnt, ag) := by
  induction entries with
  | nil => intro cnt ag tr stp; rfl
  | cons e t ih =>
    intro cnt ag tr stp
    rw [List.foldl_cons, List.foldl_cons]
    have hstep := fireStepT_proj_step (cnt, ag, tr, stp) e
    rcases hT : fireStepT (cnt, ag, tr, stp) e with ⟨cnt', ag', tr', stp'⟩
    rw [hT] at hstep
    simp only at hstep
    rw [ih cnt' ag' tr' stp', ← hstep]

lemma fcTraceLoop_proj (bucket : String → List (Nat × Clause)) (q : String) :
    ∀ (fuel : Nat) (st : FCTState),
      (fcTraceLoop bucket q fuel st).map (fun r => (r.1, r.2.1)) =
        fcLoop bucket q fuel ⟨st.count, st.inferred, st.agenda, st.path⟩ := by
  intro fuel
  induction fuel with
  | zero => intro st; rfl
  | succ n ih =>
    intro st
    obtain ⟨cnt, inf, ag, pth, tr, stp⟩ := st
    cases ag with
    | nil => rfl
    | cons p rest =>
      simp only [fcTraceLoop, fcLoop]
      by_cases hq : p = q
      · rw [if_pos hq, if_pos hq]
        rfl
      · rw [if_neg hq, if_neg hq]
        by_cases hi : inf p = true
        · rw [if_pos hi, if_pos hi]
          exact ih _
        · rw [if_neg hi, if_neg hi]
          have hfold := fireStepT_proj (bucket p) cnt rest
            (tr ++ [TraceEntry.popAgenda stp rest p] ++
              [TraceEntry.inferSym (stp + 1) p (pth ++ [p])]) (stp + 1 + 1)
          have hrec := ih
            { count := ((bucket p).foldl fireStepT
                (cnt, rest,
                  tr ++ [TraceEntry.popAgenda stp rest p] ++
                    [TraceEntry.inferSym (stp + 1) p (pth ++ [p])], stp + 1 + 1)).1
              inferred := fun s => if s = p then true else inf s
              agenda := ((bucket p).foldl fireStepT
                (cnt, rest,
                  tr ++ [TraceEntry.popAgenda stp rest p] ++
                    [TraceEntry.inferSym (stp + 1) p (pth ++ [p])], stp + 1 + 1)).2.1
              path := pth ++ [p]
              trace := ((bucket p).foldl fireStepT
                (cnt, rest,
                  tr ++ [TraceEntry.popAgenda stp rest p] ++
                    [TraceEntry.inferSym (stp + 1) p (pth ++ [p])], stp + 1 + 1)).2.2.1
              stp := ((bucket p).foldl fireStepT
                (cnt, rest,
                  tr ++ [TraceEntry.popAgenda stp rest p] ++
                    [TraceEntry.inferSym (stp + 1) p (pth ++ [p])], stp + 1 + 1)).2.2.2 }
          rw [hrec]
          have h1 := congrArg Prod.fst hfold
          have h2 := congrArg (fun x => x.2) hfold
          simp only at h1 h2
          rw [h1, h2]

/-- C8: `forward_chaining_with_trace` returns the same entailment verdict and
the same inference path, element for element, as `forward_chaining`; the
trace is purely observational. -/
theorem forward_chaining_with_trace_agrees (kb : KnowledgeBase) (q : String) :
    ((forward_chaining_with_trace kb q).1, (forward_chaining_with_trace kb q).2.1) =
      forward_chaining kb q := by
  rw [forward_chaining_with_trace, forward_chaining]
  have hproj := fcTraceLoop_proj kb.clauses_by_premise q (fcFuel kb)
    { count := initCount kb
      inferred := fun _ => false
      agenda := kb.get_facts
      path := []
      trace := [.startRun 0 kb.get_facts []
        (kb.clauses.map (fun c => (c.premise_literals.length : Int)))]
      stp := 1 }
  cases htr : fcTraceLoop kb.clauses_by_premise q (fcFuel kb)
      { count := initCount kb
        inferred := fun _ => false
        agenda := kb.get_facts
        path := []
        trace := [.startRun 0 kb.get_facts []
          (kb.clauses.map (fun c => (c.premise_literals.length : Int)))]
        stp := 1 } with
  | none =>
    rw [htr] at hproj
    have hplain : fcLoop kb.clauses_by_premise q (fcFuel kb) (initState kb) = none :=
      hproj.symm
    rw [hplain]
    rfl
  | some r =>
    rw [htr] at hproj
    simp only [Option.map_some'] at hproj
    have hplain : fcLoop kb.clauses_by_premise q (fcFuel kb) (initState kb) =
        some (r.1, r.2.1) := hproj.symm
    rw [hplain]
    rfl

/-! ### Claim C9: a run never depends on or mutates knowledge-base state -/

/-- The clause with its mutable `known_count` field overwritten — the only
per-clause state a Python run could conceivably leave behind. -/
def Clause.withKnownCount (c : Clause) (n : Int) : Clause :=
  { c with known_count := n }

/-- The knowledge base with every stored clause's `known_count` overwritten
(both in the clause list and in the premise-index buckets, which alias the
same objects in Python); the clause list, facts set and premise index are
structurally untouched. -/
def KnowledgeBase.withKnownCounts (kb : KnowledgeBase) (n : Int) : KnowledgeBase :=
  { clauses := kb.clauses.map (fun c => c.withKnownCount n)
    clauses_by_premise := fun s =>
      (kb.clauses_by_premise s).map (fun e => (e.1, e.2.withKnownCount n))
    facts := kb.facts }

lemma fireStep_foldl_known_count (entries : List (Nat × Clause)) (n : Int) :
    ∀ (cnt : Nat → Int) (ag : List String),
      (entries.map (fun e => (e.1, e.2.withKnownCount n))).foldl fireStep (cnt, ag) =
        entries.foldl fireStep (cnt, ag) := by
  induction entries with
  | nil => intro cnt ag; rfl
  | cons e t ih =>
    intro cnt ag
    rw [List.map_cons, List.foldl_cons, List.foldl_cons]
    have hstep : fireStep (cnt, ag) (e.1, e.2.withKnownCount n) =
        fireStep (cnt, ag) e := rfl
    rw [hstep, ih]

lemma fcLoop_known_count (bucket : String → List (Nat × Clause)) (n : Int)
    (q : String) :
    ∀ (fuel : Nat) (st : FCState),
      fcLoop (fun s => (bucket s).map (fun e => (e.1, e.2.withKnownCount n))) q fuel st =
        fcLoop bucket q fuel st := by
  intro fuel
  induction fuel with
  | zero => intro st; rfl
  | succ m ih =>
    intro st
    obtain ⟨cnt, inf, ag, pth⟩ := st
    cases ag with
    | nil => rfl
    | cons p rest =>
      simp only [fcLoop]
      by_cases hq : p = q
      · rw [if_pos hq, if_pos hq]
      · rw [if_neg hq, if_neg hq]
        by_cases hi : inf p = true
        · rw [if_pos hi, if_pos hi]
          exact ih _
        · rw [if_neg hi, if_neg hi]
          rw [fireStep_foldl_known_count (bucket p) n cnt rest]
          exact ih _

lemma initCount_withKnownCounts (kb : KnowledgeBase) (n : Int) :
    initCount (kb.withKnownCounts n) = initCount kb := by
  funext i
  simp only [initCount, KnowledgeBase.withKnownCounts]
  rw [List.getD_eq_getElem?_getD, List.getD_eq_getElem?_getD, List.getElem?_map]
  cases h : kb.clauses[i]? with
  | none => rfl
  | some c => rfl

lemma premSymbols_withKnownCounts (kb : KnowledgeBase) (n : Int) :
    premSymbols (kb.withKnownCounts n) = premSymbols kb := by
  simp [premSymbols, KnowledgeBase.withKnownCounts, List.map_map, Function.comp_def,
    Clause.withKnownCount]

lemma fcFuel_withKnownCounts (kb : KnowledgeBase) (n : Int) :
    fcFuel (kb.withKnownCounts n) = fcFuel kb := by
  rw [fcFuel, fcFuel, premSymbols_withKnownCounts]
  simp [KnowledgeBase.withKnownCounts, List.length_map]

/-- C9: `forward_chaining` neither reads nor writes any mutable clause state:
its result is invariant under arbitrarily overwriting every clause's
`known_count` — the only clause field a run could mutate, and the per-run
`count` map is rebuilt from the premise-list lengths instead.  In the
embedding the knowledge base is passed by value and no updated knowledge
base is returned, so two successive runs on the same knowledge base are runs
of one pure function and return the identical (entailed, path) pair. -/
theorem forward_chaining_ignores_known_count (kb : KnowledgeBase) (q : String)
    (n : Int) :
    forward_chaining (kb.withKnownCounts n) q = forward_chaining kb q := by
  rw [forward_chaining, forward_chaining, fcFuel_withKnownCounts]
  have hinit : initState (kb.withKnownCounts n) = initState kb := by
    rw [initState, initState, initCount_withKnownCounts]
    rfl
  rw [hinit]
  have hcong := fcLoop_known_count kb.clauses_by_premise n q (fcFuel kb) (initState kb)
  exact congrArg (fun x => x.getD (false, [])) hcong

end FC
